import Mathlib

/-!
Verification of the huldufolk usermode-helper gatekeeper (src/main.rs).

The program is shallowly embedded: Rust strings become Lean `String`
(manipulated through their `List Char` data), the fallible capability-list
parser becomes a function into `Except`, and the kernel-visible side effects
of the main control path (prctl calls, capability-set writes, the final exec,
stderr writes and process exits) become an explicit list of events produced
by pure trace functions.
-/

namespace Huldufolk

/-- Separator predicate of the capability-list splitter in `deserialize_caps`:
Rust `c.is_whitespace() || c == ','`. -/
def isSep (c : Char) : Bool := c.isWhitespace || c == ','

/-- Flag-suffix separator of `deserialize_caps`: Rust `c == '+' || c == '-'`. -/
def isFlagSep (c : Char) : Bool := c == '+' || c == '-'

/-- Rust `str::split` with a char predicate: separators are single matching
characters, empty fields are kept (`"a,,b"` gives `["a","","b"]`, `""` gives
`[""]`). -/
def splitP (p : Char → Bool) : List Char → List (List Char)
  | [] => [[]]
  | c :: cs =>
    if p c then
      [] :: splitP p cs
    else
      match splitP p cs with
      | [] => [[c]]
      | f :: r => (c :: f) :: r

/-- Rust `str::trim`: drop Unicode whitespace from both ends (the embedding
uses `Char.isWhitespace`, which covers the ASCII whitespace relevant here). -/
def trimChars (xs : List Char) : List Char :=
  ((xs.dropWhile Char.isWhitespace).reverse.dropWhile Char.isWhitespace).reverse

/-- Rust `part.split(p).next().unwrap_or(part)`: the first field of the split,
with the (unreachable) fallback to the whole input mirrored faithfully. -/
def firstField (p : Char → Bool) (xs : List Char) : List Char :=
  match splitP p xs with
  | [] => xs
  | f :: _ => f

/-- The fixed set of capability names recognised by `Capability::from_str` of
the caps crate (the dependency used by src/main.rs), i.e. the names of the
Linux capabilities. -/
def capabilityNames : List String :=
  ["CAP_CHOWN", "CAP_DAC_OVERRIDE", "CAP_DAC_READ_SEARCH", "CAP_FOWNER",
   "CAP_FSETID", "CAP_KILL", "CAP_SETGID", "CAP_SETUID", "CAP_SETPCAP",
   "CAP_LINUX_IMMUTABLE", "CAP_NET_BIND_SERVICE", "CAP_NET_BROADCAST",
   "CAP_NET_ADMIN", "CAP_NET_RAW", "CAP_IPC_LOCK", "CAP_IPC_OWNER",
   "CAP_SYS_MODULE", "CAP_SYS_RAWIO", "CAP_SYS_CHROOT", "CAP_SYS_PTRACE",
   "CAP_SYS_PACCT", "CAP_SYS_ADMIN", "CAP_SYS_BOOT", "CAP_SYS_NICE",
   "CAP_SYS_RESOURCE", "CAP_SYS_TIME", "CAP_SYS_TTY_CONFIG", "CAP_MKNOD",
   "CAP_LEASE", "CAP_AUDIT_WRITE", "CAP_AUDIT_CONTROL", "CAP_SETFCAP",
   "CAP_MAC_OVERRIDE", "CAP_MAC_ADMIN", "CAP_SYSLOG", "CAP_WAKE_ALARM",
   "CAP_BLOCK_SUSPEND", "CAP_AUDIT_READ", "CAP_PERFMON", "CAP_BPF",
   "CAP_CHECKPOINT_RESTORE"]

/-- Function `Capability::from_str` of the caps crate, on an already-uppercased name:
exact lookup in the fixed list of capability names.  A capability is
represented by its canonical (uppercase) name string. -/
def capabilityFromStr (name : String) : Option String :=
  if name ∈ capabilityNames then some name else none

/-- The cleaned form of a capability-list string:
`s.trim().trim_start_matches("=").trim()` from `deserialize_caps`
(`trim_start_matches` with a one-character pattern drops every leading
occurrence). -/
def cleanCaps (s : String) : List Char :=
  trimChars ((trimChars s.data).dropWhile (fun c => c == '='))

/-- The token list of a capability-list string: split the cleaned form on
whitespace or comma and keep the non-empty parts
(`clean_s.split(...).filter(|part| !part.is_empty())`). -/
def capTokens (s : String) : List (List Char) :=
  (splitP isSep (cleanCaps s)).filter (fun part => !part.isEmpty)

/-- The per-token body of `deserialize_caps`: strip a trailing `+`/`-` flag
suffix, uppercase, resolve against the known capability names; an
unresolvable name produces the error `bad caps <token>` naming the stripped,
original-case token. -/
def parseCapToken (part : List Char) : Except String String :=
  let name := firstField isFlagSep part
  match capabilityFromStr (String.mk (name.map Char.toUpper)) with
  | some c => .ok c
  | none => .error ("bad caps " ++ String.mk name)

/-- Rust `iterator.collect::<Result<_, _>>()`: map a fallible function over a
list left to right, stopping at the first error. -/
def collectE {α β : Type} (f : α → Except String β) : List α → Except String (List β)
  | [] => .ok []
  | x :: xs =>
    match f x with
    | .error e => .error e
    | .ok y =>
      match collectE f xs with
      | .error e => .error e
      | .ok ys => .ok (y :: ys)

/-- Function `deserialize_caps` from src/main.rs: clean the string; an empty cleaned
form means "no capabilities configured" (`Ok(None)`); otherwise tokenise,
resolve every token, and collect the results into a set (`HashSet` becomes
`Finset String`; duplicates collapse). -/
def deserialize_caps (s : String) : Except String (Option (Finset String)) :=
  let clean_s := cleanCaps s
  if clean_s.isEmpty then
    .ok none
  else
    match collectE parseCapToken ((splitP isSep clean_s).filter (fun part => !part.isEmpty)) with
    | .error e => .error e
    | .ok caps => .ok (some caps.toFinset)

/-- Decidable equality on parser results, for concrete evaluation. -/
def exceptCapsDecEq :
    ∀ (a b : Except String (Option (Finset String))), Decidable (a = b)
  | .ok a, .ok b =>
      decidable_of_iff (a = b) (by simp)
  | .error a, .error b =>
      decidable_of_iff (a = b) (by simp)
  | .ok _, .error _ => isFalse (by simp)
  | .error _, .ok _ => isFalse (by simp)

instance : DecidableEq (Except String (Option (Finset String))) :=
  exceptCapsDecEq

/-- A configured helper (struct `Helper` of src/main.rs).  `path` is the
allowlisted executable path, `argc` the optional exact arity, and
`capabilities` the optional capability set produced by `deserialize_caps`
(`None` = no capability key configured). -/
structure Helper where
  path : String
  argc : Option Nat
  capabilities : Option (Finset String)
deriving DecidableEq

/-- The configuration (struct `Config`): the ordered list of helpers. -/
structure Config where
  helpers : List Helper
deriving DecidableEq

/-- Method `Helper::allowed` from src/main.rs: element 0 of the invocation vector
must equal `path`; when `argc` is set the vector length must equal it. -/
def Helper.allowed (h : Helper) (args : List String) : Bool :=
  if !((args.head?).map (fun a => a == h.path)).getD false then
    false
  else
    match h.argc with
    | some argc => if args.length != argc then false else true
    | none => true

/-- Method `Config::find_helper`, the search part: the first helper (in declaration
order) whose `allowed` predicate accepts the invocation.  The surrounding
fatal-error handling (missing element 0, no match) lives in `main_trace`. -/
def Config.find_helper (cfg : Config) (args : List String) : Option Helper :=
  cfg.helpers.find? (fun s => s.allowed args)

/-- The four kernel capability categories (`caps::CapSet`). -/
inductive CapSetKind
  | Effective
  | Inheritable
  | Permitted
  | Ambient
deriving DecidableEq

/-- Debug-name of a capability category, as printed by the Rust
format specifier on `CapSet` in error messages. -/
def capSetName : CapSetKind → String
  | .Effective => "Effective"
  | .Inheritable => "Inheritable"
  | .Permitted => "Permitted"
  | .Ambient => "Ambient"

/-- SECBIT_NOROOT, the securebits flag passed to prctl in `priv_restrict`. -/
def SECBIT_NOROOT : Nat := 1

/-- Kernel-visible effects of the gatekeeper, in program order:
prctl securebits writes, capability-category replacement (`caps::set`),
single-capability raising (`caps::raise`), the no-new-privileges prctl, the
terminal exec (`Command::exec` with path, argv0, argument tail and the full
replacement environment), stderr diagnostics, process exit, and the panic of
a missing argv0. -/
inductive Event
  | prctl_set_securebits (bits : Nat)
  | caps_set (which : CapSetKind) (caps : Finset String)
  | caps_raise (which : CapSetKind) (cap : String)
  | prctl_set_nnp
  | exec_image (path : String) (arg0 : String) (tail : List String)
      (env : List (String × String))
  | stderr_write (msg : String)
  | exit_code (code : Nat)
  | panic
deriving DecidableEq

/-- The `fail!` macro of src/main.rs: write `ERROR: <msg>\n` to stderr and
exit with status 1 (the shared generic-fatal-error status). -/
def fail (msg : String) : List Event :=
  [.stderr_write ("ERROR: " ++ msg ++ "\n"), .exit_code 1]

/-- Rust Debug formatting of an `OsString` path: the path in double quotes
(escaping of exotic bytes is not modelled). -/
def debugFmt (s : String) : String := "\"" ++ s ++ "\""

/-- The failure trace of `Config::find_helper` when no helper matches:
`fail!("invalid usermode helper {:?}", name)` reports only element 0. -/
def invalid_helper_trace (name : String) : List Event :=
  fail ("invalid usermode helper " ++ debugFmt name)

/-- A canonical enumeration of a capability set as a sorted list of names
(the Rust `HashSet` iteration order is unspecified; the embedding fixes the
sorted order). -/
def capList (caps : Finset String) : List String :=
  caps.sort (fun a b => a ≤ b)

/-- Function `priv_restrict` from src/main.rs, success path, as its ordered trace of
kernel operations: (1) securebits SECBIT_NOROOT, (2) replace Effective,
Inheritable and Permitted each with exactly the configured set, (3) raise
each configured capability into Ambient, (4) no-new-privileges. -/
def priv_restrict (caps_to_apply : Finset String) : List Event :=
  [.prctl_set_securebits SECBIT_NOROOT]
    ++ ([CapSetKind.Effective, CapSetKind.Inheritable, CapSetKind.Permitted].map
        (fun set => .caps_set set caps_to_apply))
    ++ ((capList caps_to_apply).map (fun cap => .caps_raise .Ambient cap))
    ++ [.prctl_set_nnp]

/-- The environment installed by `Helper::execute` after `env_clear()`:
exactly HOME, TERM and PATH. -/
def execEnv : List (String × String) :=
  [("HOME", "/"), ("TERM", "linux"), ("PATH", "/sbin:/bin:/usr/sbin:/usr/bin")]

/-- Method `Helper::execute`, success case: exec at `path`, argv0 = `path`,
argument tail = `invocation[1..]`, environment = `execEnv`. -/
def Helper.execute (h : Helper) (args : List String) : Event :=
  .exec_image h.path h.path (args.drop 1) execEnv

/-- The failure trace of `Helper::execute` when the exec is rejected:
`fail!("exec failed: {}", err)` — report and exit, no retry. -/
def exec_fail_trace (err : String) : List Event :=
  fail ("exec failed: " ++ err)

/-- Function `sanitize_fds` from src/main.rs, modelled on the outcomes of its five
kernel calls: `some code` means the process exits with that status, `none`
means sanitization succeeded.  Failing to open /dev/null exits with 2; a
failing dup2 or a failing close_range bulk-close exits with 3. -/
def sanitize_fds (open_ok dup_stdin_ok dup_stdout_ok dup_stderr_ok
    close_range_ok : Bool) : Option Nat :=
  if !open_ok then some 2
  else if !dup_stdin_ok then some 3
  else if !dup_stdout_ok then some 3
  else if !dup_stderr_ok then some 3
  else if !close_range_ok then some 3
  else none

/-- Failure trace of `Config::load` when the file cannot be read. -/
def config_read_fail_trace (path err : String) : List Event :=
  fail ("couldn\x27t read config file " ++ path ++ ": " ++ err)

/-- Failure trace of `Config::load` when the file cannot be parsed. -/
def config_parse_fail_trace (path err : String) : List Event :=
  fail ("couldn\x27t parse config file " ++ path ++ ": " ++ err)

/-- Failure trace of step 1 of `priv_restrict` (the message preserves the
typo of the source). -/
def securebits_fail_trace : List Event :=
  fail ("couln\x27t set securebits")

/-- Failure trace of step 2 of `priv_restrict`, naming the failing category. -/
def caps_set_fail_trace (which : CapSetKind) (err : String) : List Event :=
  fail ("couldn\x27t apply caps to " ++ capSetName which ++ ": " ++ err)

/-- Failure trace of step 3 of `priv_restrict`, naming the failing
capability. -/
def ambient_fail_trace (cap err : String) : List Event :=
  fail ("couldn\x27t set ambient cap " ++ cap ++ ": " ++ err)

/-- Failure trace of step 4 of `priv_restrict`. -/
def nnp_fail_trace : List Event :=
  fail ("failed to set nnp")

/-- The kernel-visible trace of `main` from configuration resolution onwards,
success path of every kernel call (`sanitize_fds` and the best-effort
`log_to_kmsg` redirection precede this and produce no modelled event; the
HULDUFOLK_DEBUG dump only reads capability sets and writes diagnostics, so it
performs no privilege mutation and is not modelled).  A missing argv0 panics
(`expect`); an unmatched invocation fails; a matched helper with a configured
capability set is preceded by `priv_restrict`; the trace ends with the exec. -/
def main_trace (cfg : Config) (args : List String) : List Event :=
  match args.head? with
  | none => [.panic]
  | some name =>
    match cfg.find_helper args with
    | none => invalid_helper_trace name
    | some helper =>
      (match helper.capabilities with
       | none => []
       | some caps => priv_restrict caps)
        ++ [helper.execute args]

example : deserialize_caps "" = .ok none := by decide

example : deserialize_caps " = " = .ok none := by decide

example : deserialize_caps "," = .ok (some ∅) := by decide

example : deserialize_caps "= cap_sys_module+eip" = deserialize_caps "cap_sys_module" := by
  decide

example : deserialize_caps "cap_sys_module" = .ok (some {"CAP_SYS_MODULE"}) := by
  decide

example : deserialize_caps "cap_bogus" = .error ("bad caps cap_bogus") := by
  decide

/-- Privilege-mutating events: prctl writes and capability-set changes. -/
def Event.isPrivOp : Event → Bool
  | .prctl_set_securebits _ => true
  | .caps_set _ _ => true
  | .caps_raise _ _ => true
  | .prctl_set_nnp => true
  | _ => false

/-- Exec events. -/
def Event.isExecImage : Event → Bool
  | .exec_image _ _ _ _ => true
  | _ => false

/-- A generic fatal-error trace: one human-readable stderr message followed
by an exit with the shared generic status 1. -/
def isGenericFailTrace (t : List Event) : Prop :=
  ∃ msg, t = [.stderr_write msg, .exit_code 1]

/-- A successful `find?` splits the list into unsuccessful prefix, the found
element, and a suffix: first match in declaration order. -/
theorem find?_eq_some_split {α : Type} (p : α → Bool) :
    ∀ (l : List α) (x : α), l.find? p = some x →
      ∃ pre post, l = pre ++ x :: post ∧ (∀ y ∈ pre, p y = false) ∧ p x = true := by
  intro l
  induction l with
  | nil => intro x h; simp [List.find?] at h
  | cons a l ih =>
    intro x h
    by_cases ha : p a
    · rw [List.find?_cons_of_pos _ ha] at h
      obtain rfl : a = x := by simpa using h
      exact ⟨[], l, by simp, by simp, ha⟩
    · rw [List.find?_cons_of_neg _ ha] at h
      obtain ⟨pre, post, rfl, hpre, hx⟩ := ih x h
      refine ⟨a :: pre, post, by simp, ?_, hx⟩
      intro y hy
      rcases List.mem_cons.mp hy with rfl | hy'
      · exact Bool.eq_false_iff.mpr ha
      · exact hpre y hy'

/-- An accepted invocation has the helper's path as element 0. -/
theorem allowed_head {h : Helper} {args : List String}
    (hall : h.allowed args = true) : args.head? = some h.path := by
  cases args with
  | nil => simp [Helper.allowed] at hall
  | cons a rest =>
    by_cases hpath : a = h.path
    · simp [hpath]
    · exfalso
      have : (a == h.path) = false := by simpa using hpath
      simp [Helper.allowed, this] at hall

/-- C3: a helper matches an invocation iff element 0 equals its path
textually and, when the arity constraint `argc` is set, the invocation length
equals it exactly; an absent `argc` leaves the length unconstrained. -/
theorem allowed_iff_path_and_argc (h : Helper) (args : List String) :
    h.allowed args = true ↔
      (args.head? = some h.path ∧ ∀ n, h.argc = some n → args.length = n) := by
  constructor
  · intro hall
    refine ⟨allowed_head hall, ?_⟩
    intro n hn
    obtain ⟨a, rest, rfl⟩ : ∃ a rest, args = a :: rest := by
      cases args with
      | nil => simp [Helper.allowed] at hall
      | cons a rest => exact ⟨a, rest, rfl⟩
    by_cases hlen : (a :: rest).length = n
    · exact hlen
    · exfalso
      have hne : ((a :: rest).length != n) = true := by simpa using hlen
      by_cases hpath : (a == h.path) = true
      · simp [Helper.allowed, hpath, hn, hne] at hall
        exact hlen hall
      · simp [Helper.allowed, Bool.eq_false_iff.mpr hpath] at hall
  · rintro ⟨hhead, hargc⟩
    obtain ⟨a, rest, rfl⟩ : ∃ a rest, args = a :: rest := by
      cases args with
      | nil => simp at hhead
      | cons a rest => exact ⟨a, rest, rfl⟩
    have ha : a = h.path := by simpa using hhead
    cases hn : h.argc with
    | none => simp [Helper.allowed, ha, hn]
    | some n =>
      have hlen : (a :: rest).length = n := hargc n hn
      simp [Helper.allowed, ha, hn]
      exact hlen

/-- C3 witness: the spec's own example, helper `/sbin/modprobe` with
`argc = 3` accepts the length-3 invocation and rejects the length-4 one. -/
theorem allowed_iff_path_and_argc_witness :
    (Helper.mk "/sbin/modprobe" (some 3) none).allowed
        ["/sbin/modprobe", "-q", "ext4"] = true
    ∧ ¬ ((Helper.mk "/sbin/modprobe" (some 3) none).allowed
        ["/sbin/modprobe", "-q", "ext4", "extra"] = true) :=
  ⟨(allowed_iff_path_and_argc _ _).mpr (by constructor <;> simp),
   fun hc => by
    have := ((allowed_iff_path_and_argc
      (Helper.mk "/sbin/modprobe" (some 3) none)
      ["/sbin/modprobe", "-q", "ext4", "extra"]).mp hc).2 3 rfl
    simp at this⟩

/-- C6: a capability-list string whose cleaned form (after trimming and
removing the leading `=` marker) is empty parses to "absent" (`Ok(None)`),
which is distinguishable from an explicitly empty set. -/
theorem empty_caps_string_absent (s : String)
    (hempty : (cleanCaps s).isEmpty = true) :
    deserialize_caps s = .ok none
    ∧ (Except.ok none : Except String (Option (Finset String)))
        ≠ .ok (some (∅ : Finset String)) := by
  constructor
  · unfold deserialize_caps
    simp [hempty]
  · simp

/-- C6 witness: the whitespace-and-marker-only string parses to absent. -/
theorem empty_caps_string_absent_witness :
    deserialize_caps "  =  " = .ok none :=
  (empty_caps_string_absent "  =  " (by decide)).1

/-- C7: exit statuses per failure class: opening the discard device fails
with status 2 regardless of later outcomes; the bulk close fails with the
distinct status 3; every generic fatal path (configuration read/parse,
matching, each capability-application step, exec) shares status 1 and always
carries a human-readable stderr message; all three statuses are pairwise
distinct and non-zero. -/
theorem exit_status_classes :
    (∀ d1 d2 d3 c, sanitize_fds false d1 d2 d3 c = some 2)
    ∧ sanitize_fds true true true true false = some 3
    ∧ ((2 : Nat) ≠ 3 ∧ (2 : Nat) ≠ 1 ∧ (3 : Nat) ≠ 1
        ∧ (2 : Nat) ≠ 0 ∧ (3 : Nat) ≠ 0 ∧ (1 : Nat) ≠ 0)
    ∧ (∀ msg, fail msg = [.stderr_write ("ERROR: " ++ msg ++ "\n"), .exit_code 1])
    ∧ (∀ path err, isGenericFailTrace (config_read_fail_trace path err))
    ∧ (∀ path err, isGenericFailTrace (config_parse_fail_trace path err))
    ∧ (∀ name, isGenericFailTrace (invalid_helper_trace name))
    ∧ isGenericFailTrace securebits_fail_trace
    ∧ (∀ which err, isGenericFailTrace (caps_set_fail_trace which err))
    ∧ (∀ cap err, isGenericFailTrace (ambient_fail_trace cap err))
    ∧ isGenericFailTrace nnp_fail_trace
    ∧ (∀ err, isGenericFailTrace (exec_fail_trace err)) := by
  refine ⟨fun d1 d2 d3 c => rfl, rfl, by norm_num, fun msg => rfl,
    fun path err => ⟨_, rfl⟩, fun path err => ⟨_, rfl⟩, fun name => ⟨_, rfl⟩,
    ⟨_, rfl⟩, fun which err => ⟨_, rfl⟩, fun cap err => ⟨_, rfl⟩,
    ⟨_, rfl⟩, fun err => ⟨_, rfl⟩⟩

/-- C8: the dispatcher execs at the helper's path with the path as argv0 and
`invocation[1..]` as the tail, under a fully replaced environment of exactly
three variables (home directory, terminal type, and a search path of system
binary directories only); on exec failure it reports the underlying error
and exits non-zero without retrying (no exec event in the failure trace). -/
theorem execute_exec_image (h : Helper) (args : List String) :
    h.execute args = .exec_image h.path h.path (args.drop 1) execEnv
    ∧ execEnv = [("HOME", "/"), ("TERM", "linux"),
        ("PATH", "/sbin:/bin:/usr/sbin:/usr/bin")]
    ∧ execEnv.length = 3
    ∧ (∀ err, exec_fail_trace err =
        [.stderr_write ("ERROR: exec failed: " ++ err ++ "\n"), .exit_code 1])
    ∧ (∀ err e, e ∈ exec_fail_trace err → e.isExecImage = false)
    ∧ (1 : Nat) ≠ 0 := by
  refine ⟨rfl, rfl, rfl, fun err => rfl, ?_, by norm_num⟩
  intro err e he
  simp [exec_fail_trace, fail] at he
  rcases he with rfl | rfl <;> rfl

/-- C8 witness: the exec event of a concrete helper and invocation. -/
theorem execute_exec_image_witness :
    (Helper.mk "/sbin/modprobe" (some 3) none).execute
        ["/sbin/modprobe", "-q", "ext4"]
      = .exec_image "/sbin/modprobe" "/sbin/modprobe" ["-q", "ext4"] execEnv :=
  (execute_exec_image (Helper.mk "/sbin/modprobe" (some 3) none)
    ["/sbin/modprobe", "-q", "ext4"]).1

/-- C2: an invocation whose element 0 equals no configured helper's path is
a fatal authorization failure: the trace is exactly one stderr report naming
only the invoked path (independent of the rest of the vector) followed by a
non-zero exit; no privilege-restriction or exec event ever occurs.  When a
helper is found, it is the first match in declaration order. -/
theorem unmatched_invocation_rejected (cfg : Config) (name : String)
    (hnone : ∀ h ∈ cfg.helpers, h.path ≠ name) :
    (∀ rest, main_trace cfg (name :: rest) = invalid_helper_trace name)
    ∧ invalid_helper_trace name =
        [.stderr_write ("ERROR: " ++ ("invalid usermode helper " ++ debugFmt name)
            ++ "\n"),
         .exit_code 1]
    ∧ (∀ rest e, e ∈ main_trace cfg (name :: rest) →
        e.isPrivOp = false ∧ e.isExecImage = false)
    ∧ (1 : Nat) ≠ 0
    ∧ (∀ args helper, cfg.find_helper args = some helper →
        ∃ pre post, cfg.helpers = pre ++ helper :: post
          ∧ (∀ h' ∈ pre, h'.allowed args = false)
          ∧ helper.allowed args = true) := by
  have hfind : ∀ rest, cfg.find_helper (name :: rest) = none := by
    intro rest
    apply List.find?_eq_none.mpr
    intro h hh hcontra
    have hhead := allowed_head hcontra
    simp at hhead
    exact hnone h hh hhead.symm
  have hmain : ∀ rest, main_trace cfg (name :: rest) = invalid_helper_trace name := by
    intro rest
    unfold main_trace
    simp [hfind rest]
  refine ⟨hmain, rfl, ?_, by norm_num, ?_⟩
  · intro rest e he
    rw [hmain rest] at he
    simp [invalid_helper_trace, fail] at he
    rcases he with rfl | rfl <;> exact ⟨rfl, rfl⟩
  · intro args helper hf
    unfold Config.find_helper at hf
    exact find?_eq_some_split _ _ _ hf

/-- C2 witness: a one-helper configuration rejects an unlisted path. -/
theorem unmatched_invocation_rejected_witness :
    main_trace (Config.mk [Helper.mk "/sbin/modprobe" (some 3) none])
        ["/bin/evil", "x"] = invalid_helper_trace "/bin/evil" :=
  (unmatched_invocation_rejected
    (Config.mk [Helper.mk "/sbin/modprobe" (some 3) none])
    "/bin/evil" (by decide)).1 ["x"]

/-- C4: a matched helper with an absent capability set skips privilege
restriction entirely: the trace is the exec event alone, with no securebits,
capability-replacement, ambient or no-new-privileges operation. -/
theorem absent_caps_no_restriction (cfg : Config) (args : List String)
    (helper : Helper) (hf : cfg.find_helper args = some helper)
    (hcaps : helper.capabilities = none) :
    main_trace cfg args = [helper.execute args]
    ∧ (∀ e ∈ main_trace cfg args, e.isPrivOp = false) := by
  have hall : helper.allowed args = true := by
    unfold Config.find_helper at hf
    simpa using List.find?_some hf
  have hhead : args.head? = some helper.path := allowed_head hall
  obtain ⟨a, rest, rfl⟩ : ∃ a rest, args = a :: rest := by
    cases args with
    | nil => simp at hhead
    | cons a rest => exact ⟨a, rest, rfl⟩
  have hmain : main_trace cfg (a :: rest) = [helper.execute (a :: rest)] := by
    unfold main_trace
    simp [hf, hcaps]
  refine ⟨hmain, ?_⟩
  intro e he
  rw [hmain] at he
  simp at he
  subst he
  rfl

/-- C4 witness: a helper with no capability key runs unrestricted. -/
theorem absent_caps_no_restriction_witness :
    main_trace (Config.mk [Helper.mk "/sbin/modprobe" (some 3) none])
        ["/sbin/modprobe", "-q", "ext4"]
      = [(Helper.mk "/sbin/modprobe" (some 3) none).execute
          ["/sbin/modprobe", "-q", "ext4"]] :=
  (absent_caps_no_restriction
    (Config.mk [Helper.mk "/sbin/modprobe" (some 3) none])
    ["/sbin/modprobe", "-q", "ext4"]
    (Helper.mk "/sbin/modprobe" (some 3) none) (by decide) rfl).1

/-- C1: for a matched helper with a configured capability set, the trace is
exactly: securebits no-root flag; replacement of Effective, Inheritable and
Permitted each with exactly the configured set; one ambient raise per
configured capability (and only for configured capabilities); a single
no-new-privileges operation, last — all before the terminal exec. -/
theorem restriction_sequence_before_exec (cfg : Config) (args : List String)
    (helper : Helper) (caps : Finset String)
    (hf : cfg.find_helper args = some helper)
    (hcaps : helper.capabilities = some caps) :
    main_trace cfg args =
      Event.prctl_set_securebits SECBIT_NOROOT
        :: Event.caps_set .Effective caps
        :: Event.caps_set .Inheritable caps
        :: Event.caps_set .Permitted caps
        :: (((capList caps).map (fun cap => Event.caps_raise .Ambient cap))
            ++ [Event.prctl_set_nnp, helper.execute args])
    ∧ (main_trace cfg args).count Event.prctl_set_nnp = 1
    ∧ (∀ cap, Event.caps_raise .Ambient cap ∈ main_trace cfg args ↔ cap ∈ caps) := by
  have hall : helper.allowed args = true := by
    unfold Config.find_helper at hf
    simpa using List.find?_some hf
  have hhead : args.head? = some helper.path := allowed_head hall
  obtain ⟨a, rest, rfl⟩ : ∃ a rest, args = a :: rest := by
    cases args with
    | nil => simp at hhead
    | cons a rest => exact ⟨a, rest, rfl⟩
  have hmain : main_trace cfg (a :: rest) =
      Event.prctl_set_securebits SECBIT_NOROOT
        :: Event.caps_set .Effective caps
        :: Event.caps_set .Inheritable caps
        :: Event.caps_set .Permitted caps
        :: (((capList caps).map (fun cap => Event.caps_raise .Ambient cap))
            ++ [Event.prctl_set_nnp, helper.execute (a :: rest)]) := by
    unfold main_trace
    simp [hf, hcaps, priv_restrict]
  refine ⟨hmain, ?_, ?_⟩
  · rw [hmain]
    have hzero : (((capList caps).map
        (fun cap => Event.caps_raise .Ambient cap)).count Event.prctl_set_nnp) = 0 := by
      apply List.count_eq_zero.mpr
      simp
    simp [List.count_cons, List.count_append, hzero, List.count_singleton,
      Helper.execute]
  · intro cap
    rw [hmain]
    simp [Helper.execute, capList, Finset.mem_sort]

/-- C1 witness: with configured set containing CAP_SYS_MODULE, the trace has
exactly one no-new-privileges operation. -/
theorem restriction_sequence_before_exec_witness :
    (main_trace (Config.mk [Helper.mk "/sbin/modprobe" (some 3)
        (some {"CAP_SYS_MODULE"})]) ["/sbin/modprobe", "-q", "ext4"]).count
      Event.prctl_set_nnp = 1 :=
  (restriction_sequence_before_exec
    (Config.mk [Helper.mk "/sbin/modprobe" (some 3) (some {"CAP_SYS_MODULE"})])
    ["/sbin/modprobe", "-q", "ext4"]
    (Helper.mk "/sbin/modprobe" (some 3) (some {"CAP_SYS_MODULE"}))
    {"CAP_SYS_MODULE"} (by decide) rfl).2.1

/-- Splitting always yields at least one field. -/
theorem splitP_ne_nil (p : Char → Bool) : ∀ xs, splitP p xs ≠ [] := by
  intro xs
  induction xs with
  | nil => simp [splitP]
  | cons c cs ih =>
    by_cases hc : p c = true
    · simp [splitP, hc]
    · have hc' : p c = false := by simpa using hc
      simp only [splitP, hc', Bool.false_eq_true, if_false]
      cases h : splitP p cs with
      | nil => simp
      | cons f r => simp

/-- A separator-free string splits into a single field. -/
theorem splitP_no_sep (p : Char → Bool) :
    ∀ xs, (∀ c ∈ xs, p c = false) → splitP p xs = [xs] := by
  intro xs
  induction xs with
  | nil => intro _; rfl
  | cons c cs ih =>
    intro h
    have hc : p c = false := h c (List.mem_cons_self c cs)
    have hcs := ih (fun a ha => h a (List.mem_cons_of_mem _ ha))
    simp [splitP, hc, hcs]

/-- Splitting a string whose prefix is separator-free, at its first
separator. -/
theorem splitP_append_sep (p : Char → Bool) (c : Char) (hc : p c = true) :
    ∀ xs ys, (∀ a ∈ xs, p a = false) →
      splitP p (xs ++ c :: ys) = xs :: splitP p ys := by
  intro xs
  induction xs with
  | nil => intro ys _; simp [splitP, hc]
  | cons a xs ih =>
    intro ys h
    have ha : p a = false := h a (List.mem_cons_self a xs)
    have hxs := ih ys (fun b hb => h b (List.mem_cons_of_mem _ hb))
    simp [splitP, ha, hxs]

/-- Every non-separator character lands in some field of the split. -/
theorem mem_splitP (p : Char → Bool) :
    ∀ xs c, c ∈ xs → p c = false → ∃ f, f ∈ splitP p xs ∧ c ∈ f := by
  intro xs
  induction xs with
  | nil => intro c hc _; simp at hc
  | cons a xs ih =>
    intro c hc hpc
    rcases List.mem_cons.mp hc with rfl | hmem
    · cases hsp : splitP p xs with
      | nil => exact absurd hsp (splitP_ne_nil p xs)
      | cons f r =>
        refine ⟨c :: f, ?_, List.mem_cons_self _ _⟩
        simp [splitP, hpc, hsp]
    · by_cases hpa : p a = true
      · obtain ⟨f, hf, hcf⟩ := ih c hmem hpc
        refine ⟨f, ?_, hcf⟩
        simp only [splitP, hpa, if_true]
        exact List.mem_cons_of_mem _ hf
      · have hpa' : p a = false := by simpa using hpa
        obtain ⟨f, hf, hcf⟩ := ih c hmem hpc
        cases hsp : splitP p xs with
        | nil => exact absurd hsp (splitP_ne_nil p xs)
        | cons f0 r =>
          rw [hsp] at hf
          rcases List.mem_cons.mp hf with rfl | hfr
          · refine ⟨a :: f, ?_, List.mem_cons_of_mem _ hcf⟩
            simp [splitP, hpa', hsp]
          · refine ⟨f, ?_, hcf⟩
            simp only [splitP, hpa', Bool.false_eq_true, if_false, hsp]
            exact List.mem_cons_of_mem _ hfr

/-- The first field of a separator-free string is the whole string. -/
theorem firstField_clean (p : Char → Bool) (xs : List Char)
    (h : ∀ c ∈ xs, p c = false) : firstField p xs = xs := by
  unfold firstField
  rw [splitP_no_sep p xs h]

/-- The first field stops at the first separator. -/
theorem firstField_append_sep (p : Char → Bool) (c : Char) (hc : p c = true)
    (xs ys : List Char) (h : ∀ a ∈ xs, p a = false) :
    firstField p (xs ++ c :: ys) = xs := by
  unfold firstField
  rw [splitP_append_sep p c hc xs ys h]

/-- Elements of a successful `collectE` come from successful applications. -/
theorem collectE_ok_mem {α β : Type} (f : α → Except String β) :
    ∀ (xs : List α) (ys : List β), collectE f xs = .ok ys →
      ∀ y ∈ ys, ∃ x ∈ xs, f x = .ok y := by
  intro xs
  induction xs with
  | nil =>
    intro ys h y hy
    simp [collectE] at h
    subst h
    simp at hy
  | cons x xs ih =>
    intro ys h y hy
    unfold collectE at h
    cases hfx : f x with
    | error e => rw [hfx] at h; simp at h
    | ok y0 =>
      rw [hfx] at h
      cases hrec : collectE f xs with
      | error e => rw [hrec] at h; simp at h
      | ok ys0 =>
        rw [hrec] at h
        simp only [Except.ok.injEq] at h
        subst h
        rcases List.mem_cons.mp hy with rfl | hy'
        · exact ⟨x, List.mem_cons_self _ _, hfx⟩
        · obtain ⟨x', hx', hfx'⟩ := ih ys0 hrec y hy'
          exact ⟨x', List.mem_cons_of_mem _ hx', hfx'⟩

/-- Collection preserves length on success. -/
theorem collectE_ok_length {α β : Type} (f : α → Except String β) :
    ∀ (xs : List α) (ys : List β), collectE f xs = .ok ys →
      ys.length = xs.length := by
  intro xs
  induction xs with
  | nil =>
    intro ys h
    simp [collectE] at h
    subst h
    rfl
  | cons x xs ih =>
    intro ys h
    unfold collectE at h
    cases hfx : f x with
    | error e => rw [hfx] at h; simp at h
    | ok y0 =>
      rw [hfx] at h
      cases hrec : collectE f xs with
      | error e => rw [hrec] at h; simp at h
      | ok ys0 =>
        rw [hrec] at h
        simp only [Except.ok.injEq] at h
        subst h
        simp [ih ys0 hrec]

/-- A failing `collectE` reports the error of some element. -/
theorem collectE_error_mem {α β : Type} (f : α → Except String β) :
    ∀ (xs : List α) (e : String), collectE f xs = .error e →
      ∃ x ∈ xs, f x = .error e := by
  intro xs
  induction xs with
  | nil => intro e h; simp [collectE] at h
  | cons x xs ih =>
    intro e h
    unfold collectE at h
    cases hfx : f x with
    | error e0 =>
      rw [hfx] at h
      simp only [Except.error.injEq] at h
      subst h
      exact ⟨x, List.mem_cons_self _ _, hfx⟩
    | ok y0 =>
      rw [hfx] at h
      cases hrec : collectE f xs with
      | error e0 =>
        rw [hrec] at h
        simp only [Except.error.injEq] at h
        subst h
        obtain ⟨x', hx', hfx'⟩ := ih e0 hrec
        exact ⟨x', List.mem_cons_of_mem _ hx', hfx'⟩
      | ok ys0 => rw [hrec] at h; simp at h

/-- Every capability of an accepted parse is a known capability name. -/
theorem mem_of_deserialize_ok (s : String) (caps : Finset String)
    (hok : deserialize_caps s = .ok (some caps)) :
    ∀ c ∈ caps, c ∈ capabilityNames := by
  intro c hc
  unfold deserialize_caps at hok
  by_cases hemp : (cleanCaps s).isEmpty = true
  · simp [hemp] at hok
  · simp only [hemp, Bool.false_eq_true, if_false] at hok
    cases hcol : collectE parseCapToken
        ((splitP isSep (cleanCaps s)).filter (fun part => !part.isEmpty)) with
    | error e => rw [hcol] at hok; simp at hok
    | ok ys =>
      rw [hcol] at hok
      simp only [Except.ok.injEq, Option.some.injEq] at hok
      subst hok
      obtain ⟨part, _, hpart⟩ :=
        collectE_ok_mem parseCapToken _ ys hcol c (List.mem_toFinset.mp hc)
      simp only [parseCapToken] at hpart
      cases hres : capabilityFromStr
          (String.mk ((firstField isFlagSep part).map Char.toUpper)) with
      | none => rw [hres] at hpart; simp at hpart
      | some m =>
        rw [hres] at hpart
        simp only [Except.ok.injEq] at hpart
        subst hpart
        unfold capabilityFromStr at hres
        by_cases hmem : String.mk ((firstField isFlagSep part).map Char.toUpper)
            ∈ capabilityNames
        · rw [if_pos hmem] at hres
          simp only [Option.some.injEq] at hres
          subst hres
          exact hmem
        · rw [if_neg hmem] at hres
          simp at hres

/-- C5: behaviour of the capability-list parser: the legacy
`"= cap_sys_module+eip"` string parses to the same set as
`"cap_sys_module"`; resolution is case-insensitive via uppercasing; the
splitter accepts whitespace or comma; duplicates collapse to one set
element; a `+`/`-` flag suffix never changes a token's parse; a parse error
is always `bad caps <token>` for some token whose stripped, uppercased name
is unresolvable; and every accepted capability is a known capability name. -/
theorem deserialize_caps_behaviour :
    (deserialize_caps "= cap_sys_module+eip" = deserialize_caps "cap_sys_module"
      ∧ deserialize_caps "cap_sys_module" = .ok (some {"CAP_SYS_MODULE"}))
    ∧ deserialize_caps "CAP_SYS_MODULE" = deserialize_caps "cap_sys_module"
    ∧ deserialize_caps "cap_chown,cap_kill" = deserialize_caps "cap_chown cap_kill"
    ∧ deserialize_caps "cap_chown,cap_chown" = .ok (some {"CAP_CHOWN"})
    ∧ (∀ part rest, (∀ c ∈ part, isFlagSep c = false) →
        parseCapToken (part ++ '+' :: rest) = parseCapToken part
        ∧ parseCapToken (part ++ '-' :: rest) = parseCapToken part)
    ∧ (∀ s e, deserialize_caps s = .error e →
        ∃ part ∈ capTokens s,
          e = "bad caps " ++ String.mk (firstField isFlagSep part)
          ∧ capabilityFromStr
              (String.mk ((firstField isFlagSep part).map Char.toUpper)) = none)
    ∧ (∀ s caps, deserialize_caps s = .ok (some caps) →
        ∀ c ∈ caps, c ∈ capabilityNames) := by
  refine ⟨⟨by decide, by decide⟩, by decide, by decide, by decide, ?_, ?_,
    mem_of_deserialize_ok⟩
  · intro part rest h
    constructor
    · simp only [parseCapToken]
      rw [firstField_append_sep isFlagSep '+' (by decide) part rest h,
        firstField_clean isFlagSep part h]
    · simp only [parseCapToken]
      rw [firstField_append_sep isFlagSep '-' (by decide) part rest h,
        firstField_clean isFlagSep part h]
  · intro s e herr
    unfold deserialize_caps at herr
    by_cases hemp : (cleanCaps s).isEmpty = true
    · simp [hemp] at herr
    · simp only [hemp, Bool.false_eq_true, if_false] at herr
      cases hcol : collectE parseCapToken
          ((splitP isSep (cleanCaps s)).filter (fun part => !part.isEmpty)) with
      | ok ys => rw [hcol] at herr; simp at herr
      | error e0 =>
        rw [hcol] at herr
        simp only [Except.error.injEq] at herr
        subst herr
        obtain ⟨part, hmem, hpart⟩ := collectE_error_mem parseCapToken _ e0 hcol
        refine ⟨part, hmem, ?_⟩
        simp only [parseCapToken] at hpart
        cases hres : capabilityFromStr
            (String.mk ((firstField isFlagSep part).map Char.toUpper)) with
        | some m => rw [hres] at hpart; simp at hpart
        | none =>
          rw [hres] at hpart
          simp only [Except.error.injEq] at hpart
          exact ⟨hpart.symm, rfl⟩

/-- C5 witness: an unresolvable token is reported by name. -/
theorem deserialize_caps_behaviour_witness :
    ∃ part ∈ capTokens "cap_bogus",
      "bad caps cap_bogus" = "bad caps " ++ String.mk (firstField isFlagSep part)
      ∧ capabilityFromStr
          (String.mk ((firstField isFlagSep part).map Char.toUpper)) = none :=
  deserialize_caps_behaviour.2.2.2.2.2.1 "cap_bogus" "bad caps cap_bogus" (by decide)

/-- C10 counterexample: the input `","` (non-empty after cleaning, but
consisting only of separators) parses to an explicitly empty set, not to
"absent" — so the explicit-empty-set state is reachable from configuration
text. -/
theorem comma_parses_to_empty_set :
    deserialize_caps "," = .ok (some (∅ : Finset String))
    ∧ ¬ (∅ : Finset String).Nonempty :=
  ⟨by decide, by simp⟩

/-- C10 amended: the parser returns absent for inputs whose cleaned form is
empty, and a set it returns is non-empty whenever the cleaned input has at
least one non-separator character; an explicitly empty set arises exactly
from the remaining inputs, which are non-empty but all separators (such as
`","`). -/
theorem parsed_set_nonempty_of_nonsep (s : String) (caps : Finset String)
    (hok : deserialize_caps s = .ok (some caps))
    (hchar : ∃ c ∈ cleanCaps s, isSep c = false) :
    caps ≠ ∅ := by
  obtain ⟨c, hcmem, hcsep⟩ := hchar
  obtain ⟨f, hf, hcf⟩ := mem_splitP isSep (cleanCaps s) c hcmem hcsep
  have hfne : f ≠ [] := by
    intro h0
    subst h0
    exact (List.not_mem_nil c) hcf
  have hffilter : f ∈ (splitP isSep (cleanCaps s)).filter
      (fun part => !part.isEmpty) := by
    apply List.mem_filter.mpr
    refine ⟨hf, ?_⟩
    cases f with
    | nil => exact absurd rfl hfne
    | cons a l => rfl
  have hemp : (cleanCaps s).isEmpty = false := by
    cases hcl : cleanCaps s with
    | nil => rw [hcl] at hcmem; exact absurd hcmem (List.not_mem_nil c)
    | cons a l => rfl
  unfold deserialize_caps at hok
  simp only [hemp, Bool.false_eq_true, if_false] at hok
  cases hcol : collectE parseCapToken
      ((splitP isSep (cleanCaps s)).filter (fun part => !part.isEmpty)) with
  | error e => rw [hcol] at hok; simp at hok
  | ok ys =>
    rw [hcol] at hok
    simp only [Except.ok.injEq, Option.some.injEq] at hok
    subst hok
    have hlen := collectE_ok_length parseCapToken _ ys hcol
    cases hys : ys with
    | nil =>
      subst hys
      rw [List.length_nil] at hlen
      have h0 : ((splitP isSep (cleanCaps s)).filter
          (fun part => !part.isEmpty)) = [] :=
        List.length_eq_zero.mp hlen.symm
      rw [h0] at hffilter
      exact absurd hffilter (List.not_mem_nil f)
    | cons y ys' =>
      subst hys
      simp

/-- C10 witness (for the amended claim): a one-capability input yields a
non-empty set. -/
theorem parsed_set_nonempty_of_nonsep_witness :
    deserialize_caps "cap_chown" = .ok (some {"CAP_CHOWN"})
    ∧ ({"CAP_CHOWN"} : Finset String) ≠ ∅ :=
  ⟨by decide,
   parsed_set_nonempty_of_nonsep "cap_chown" {"CAP_CHOWN"} (by decide) (by decide)⟩

/-- Words joined by single space characters (helper of the spec-modelled
canonical renderer below). -/
def joinWords : List (List Char) → List Char
  | [] => []
  | [w] => w
  | w :: ws => w ++ ' ' :: joinWords ws

/-- Modelled from the spec: the repository contains no renderer from a
normalized capability set back to a string, but §8 speaks of "the normalized
set's canonical string form"; it is modelled as the capability names in
sorted order joined by single spaces, with the empty set rendering as the
empty string. -/
def canonicalCapString (caps : Finset String) : String :=
  String.mk (joinWords ((capList caps).map String.data))

/-- A clean word: non-empty, free of separators (hence of whitespace), flag
markers and the `=` marker, and fixed under uppercasing. -/
def cleanWord (w : List Char) : Prop :=
  w ≠ [] ∧ ∀ c ∈ w, isSep c = false ∧ isFlagSep c = false
    ∧ (c == '=') = false ∧ Char.toUpper c = c

instance : DecidablePred cleanWord := fun w => by
  unfold cleanWord
  infer_instance

/-- Every known capability name is a clean word. -/
theorem known_clean : ∀ n ∈ capabilityNames, cleanWord n.data := by decide

/-- Mapping a function that fixes every element of a list is the identity. -/
theorem map_fix {α : Type} (f : α → α) :
    ∀ (l : List α), (∀ a ∈ l, f a = a) → l.map f = l := by
  intro l
  induction l with
  | nil => intro _; rfl
  | cons a l ih =>
    intro h
    rw [List.map_cons, h a (List.mem_cons_self _ _),
      ih (fun b hb => h b (List.mem_cons_of_mem _ hb))]

/-- Joining a non-empty word list starts with the first word. -/
theorem joinWords_eq_append (w : List Char) (ws : List (List Char)) :
    ∃ t, joinWords (w :: ws) = w ++ t := by
  cases ws with
  | nil => exact ⟨[], by simp [joinWords]⟩
  | cons w' ws' => exact ⟨' ' :: joinWords (w' :: ws'), rfl⟩

/-- Joining a list that starts with a non-empty word is non-empty. -/
theorem joinWords_ne_nil (w : List Char) (ws : List (List Char)) (hw : w ≠ []) :
    joinWords (w :: ws) ≠ [] := by
  obtain ⟨t, ht⟩ := joinWords_eq_append w ws
  rw [ht]
  intro h
  exact hw (List.append_eq_nil.mp h).1

/-- The head of `joinWords` is a character of the first word. -/
theorem joinWords_head?_mem (w : List Char) (ws : List (List Char)) (hw : w ≠ []) :
    ∃ c, (joinWords (w :: ws)).head? = some c ∧ c ∈ w := by
  obtain ⟨t, ht⟩ := joinWords_eq_append w ws
  cases w with
  | nil => exact absurd rfl hw
  | cons a l => exact ⟨a, by rw [ht]; rfl, List.mem_cons_self _ _⟩

/-- The last character of `joinWords` is a character of some word. -/
theorem joinWords_getLast?_mem :
    ∀ (ws : List (List Char)), ws ≠ [] → (∀ u ∈ ws, u ≠ []) →
      ∃ c, (joinWords ws).getLast? = some c ∧ ∃ w ∈ ws, c ∈ w := by
  intro ws
  induction ws with
  | nil => intro h _; exact absurd rfl h
  | cons w0 ws ih =>
    intro _ hne
    cases ws with
    | nil =>
      have hw0 : w0 ≠ [] := hne w0 (List.mem_cons_self _ _)
      have hsome : w0.getLast?.isSome := by
        cases hl : w0.getLast? with
        | none => exact absurd (List.getLast?_eq_none_iff.mp hl) hw0
        | some c => rfl
      obtain ⟨c, hc⟩ := Option.isSome_iff_exists.mp hsome
      refine ⟨c, ?_, w0, List.mem_cons_self _ _, List.mem_of_mem_getLast? ?_⟩
      · show (joinWords [w0]).getLast? = some c
        simpa [joinWords] using hc
      · rw [hc]; rfl
    | cons w1 ws' =>
      obtain ⟨c, hc, w, hwmem, hcw⟩ :=
        ih (by simp) (fun u hu => hne u (List.mem_cons_of_mem _ hu))
      have hjoin : joinWords (w0 :: w1 :: ws') = w0 ++ ' ' :: joinWords (w1 :: ws') := rfl
      have hjne : joinWords (w1 :: ws') ≠ [] :=
        joinWords_ne_nil w1 ws' (hne w1 (by simp))
      refine ⟨c, ?_, w, List.mem_cons_of_mem _ hwmem, hcw⟩
      rw [hjoin, List.getLast?_append_cons]
      cases hj : joinWords (w1 :: ws') with
      | nil => exact absurd hj hjne
      | cons a l =>
        rw [List.getLast?_cons_cons]
        rw [hj] at hc
        exact hc

/-- Dropping while a predicate holds is the identity when the head fails the
predicate. -/
theorem dropWhile_eq_self_of_head {p : Char → Bool} (xs : List Char)
    (h : ∀ c, xs.head? = some c → p c = false) : xs.dropWhile p = xs := by
  cases xs with
  | nil => rfl
  | cons a l =>
    have ha := h a rfl
    simp [List.dropWhile_cons, ha]

/-- Trimming is the identity when neither end is whitespace. -/
theorem trimChars_eq_self (xs : List Char)
    (h1 : ∀ c, xs.head? = some c → c.isWhitespace = false)
    (h2 : ∀ c, xs.getLast? = some c → c.isWhitespace = false) :
    trimChars xs = xs := by
  unfold trimChars
  rw [dropWhile_eq_self_of_head xs h1,
    dropWhile_eq_self_of_head xs.reverse
      (fun c hc => h2 c (by rwa [List.head?_reverse] at hc)),
    List.reverse_reverse]

/-- Splitting a space-joined list of clean words recovers the words. -/
theorem splitP_joinWords :
    ∀ (ws : List (List Char)), (∀ w ∈ ws, cleanWord w) →
      (splitP isSep (joinWords ws)).filter (fun part => !part.isEmpty) = ws
  | [] => by
    intro _
    simp [joinWords, splitP]
  | [w] => by
    intro h
    have hw := h w (List.mem_cons_self _ _)
    have hnosep : ∀ c ∈ w, isSep c = false := fun c hc => (hw.2 c hc).1
    have hj : joinWords [w] = w := rfl
    rw [hj, splitP_no_sep isSep w hnosep]
    have hwne : w.isEmpty = false := by
      cases w with
      | nil => exact absurd rfl hw.1
      | cons a l => rfl
    simp [List.filter, hwne]
  | w :: w' :: ws => by
    intro h
    have hw := h w (List.mem_cons_self _ _)
    have hrest : ∀ u ∈ w' :: ws, cleanWord u :=
      fun u hu => h u (List.mem_cons_of_mem _ hu)
    have ih := splitP_joinWords (w' :: ws) hrest
    have hnosep : ∀ c ∈ w, isSep c = false := fun c hc => (hw.2 c hc).1
    have hjoin : joinWords (w :: w' :: ws) = w ++ ' ' :: joinWords (w' :: ws) := rfl
    rw [hjoin, splitP_append_sep isSep ' ' (by decide) w _ hnosep]
    have hwne : w.isEmpty = false := by
      cases w with
      | nil => exact absurd rfl hw.1
      | cons a l => rfl
    rw [List.filter_cons]
    simp only [hwne, Bool.not_false, if_true]
    rw [ih]

/-- Parsing the data of known capability names succeeds and returns them
unchanged. -/
theorem collectE_parse_words :
    ∀ (L : List String), (∀ c ∈ L, c ∈ capabilityNames) →
      collectE parseCapToken (L.map String.data) = .ok L := by
  intro L
  induction L with
  | nil => intro _; rfl
  | cons c L ih =>
    intro h
    have hc : c ∈ capabilityNames := h c (List.mem_cons_self _ _)
    have hcw : cleanWord c.data := known_clean c hc
    have hnoflag : ∀ a ∈ c.data, isFlagSep a = false := fun a ha => (hcw.2 a ha).2.1
    have hparse : parseCapToken c.data = .ok c := by
      simp only [parseCapToken]
      rw [firstField_clean isFlagSep c.data hnoflag,
        map_fix Char.toUpper c.data (fun a ha => (hcw.2 a ha).2.2.2)]
      have hmkc : String.mk c.data = c := rfl
      rw [hmkc]
      unfold capabilityFromStr
      rw [if_pos hc]
    rw [List.map_cons]
    simp only [collectE, hparse]
    rw [ih (fun b hb => h b (List.mem_cons_of_mem _ hb))]

/-- Round-trip of the canonical rendering for any non-empty set of known
capability names. -/
theorem roundtrip_of_known (caps : Finset String) (hne : caps ≠ ∅)
    (hsub : ∀ c ∈ caps, c ∈ capabilityNames) :
    deserialize_caps (canonicalCapString caps) = .ok (some caps) := by
  have hLmem : ∀ c ∈ capList caps, c ∈ capabilityNames := by
    intro c hc
    exact hsub c (Finset.mem_sort (α := String) (fun a b => a ≤ b) |>.mp hc)
  have hLfin : (capList caps).toFinset = caps := Finset.sort_toFinset _ caps
  have hLne : capList caps ≠ [] := by
    intro h0
    apply hne
    rw [← hLfin, h0]
    rfl
  obtain ⟨c0, L', hLcons⟩ : ∃ c0 L', capList caps = c0 :: L' := by
    cases hL : capList caps with
    | nil => exact absurd hL hLne
    | cons c0 L' => exact ⟨c0, L', rfl⟩
  have hWclean : ∀ w ∈ (capList caps).map String.data, cleanWord w := by
    intro w hw
    obtain ⟨c, hc, rfl⟩ := List.mem_map.mp hw
    exact known_clean c (hLmem c hc)
  have hWne : ∀ w ∈ (capList caps).map String.data, w ≠ [] :=
    fun w hw => (hWclean w hw).1
  have hWcons : (capList caps).map String.data = c0.data :: L'.map String.data := by
    rw [hLcons, List.map_cons]
  have hc0clean : cleanWord c0.data := by
    apply hWclean
    rw [hWcons]
    exact List.mem_cons_self _ _
  -- the joined character list and its cleaning
  have hdata : (canonicalCapString caps).data
      = joinWords ((capList caps).map String.data) := rfl
  have hhead : ∀ c, (joinWords ((capList caps).map String.data)).head? = some c →
      (c.isWhitespace = false ∧ (c == '=') = false) := by
    intro c hc
    rw [hWcons] at hc
    obtain ⟨c', hc', hmem⟩ :=
      joinWords_head?_mem c0.data (L'.map String.data) hc0clean.1
    rw [hc'] at hc
    have hceq : c' = c := by simpa using hc
    rw [← hceq]
    have hprops := hc0clean.2 c' hmem
    have hws : c'.isWhitespace = false := by
      have hsep := hprops.1
      unfold isSep at hsep
      exact (Bool.or_eq_false_iff.mp hsep).1
    exact ⟨hws, hprops.2.2.1⟩
  have hlast : ∀ c,
      (joinWords ((capList caps).map String.data)).getLast? = some c →
      c.isWhitespace = false := by
    intro c hc
    obtain ⟨c', hc', w, hwmem, hcw⟩ :=
      joinWords_getLast?_mem ((capList caps).map String.data)
        (by rw [hWcons]; simp) hWne
    rw [hc'] at hc
    have hceq : c' = c := by simpa using hc
    rw [← hceq]
    have hprops := (hWclean w hwmem).2 c' hcw
    have hsep := hprops.1
    unfold isSep at hsep
    exact (Bool.or_eq_false_iff.mp hsep).1
  have hclean : cleanCaps (canonicalCapString caps)
      = joinWords ((capList caps).map String.data) := by
    unfold cleanCaps
    rw [hdata]
    rw [trimChars_eq_self _ (fun c hc => (hhead c hc).1) hlast]
    rw [dropWhile_eq_self_of_head _ (fun c hc => (hhead c hc).2)]
    exact trimChars_eq_self _ (fun c hc => (hhead c hc).1) hlast
  have hjne : joinWords ((capList caps).map String.data) ≠ [] := by
    rw [hWcons]
    exact joinWords_ne_nil _ _ hc0clean.1
  have hempty : (cleanCaps (canonicalCapString caps)).isEmpty = false := by
    rw [hclean]
    cases hj : joinWords ((capList caps).map String.data) with
    | nil => exact absurd hj hjne
    | cons a l => rfl
  unfold deserialize_caps
  simp only [hempty, Bool.false_eq_true, if_false]
  rw [hclean, splitP_joinWords _ hWclean, collectE_parse_words _ hLmem]
  show Except.ok (some (capList caps).toFinset) = Except.ok (some caps)
  rw [hLfin]

/-- C9 counterexample: the input `","` is accepted by the parser and yields
the empty set, whose canonical string form is the empty string; re-parsing
it yields "absent" (`Ok(None)`), not the same set — so parse-render-parse is
not idempotent on every accepted string. -/
theorem roundtrip_fails_on_empty_set :
    deserialize_caps "," = .ok (some (∅ : Finset String))
    ∧ canonicalCapString (∅ : Finset String) = ""
    ∧ deserialize_caps (canonicalCapString (∅ : Finset String)) = .ok none
    ∧ (Except.ok none : Except String (Option (Finset String)))
        ≠ .ok (some (∅ : Finset String)) := by
  have hcan : canonicalCapString (∅ : Finset String) = "" := by
    unfold canonicalCapString capList
    rw [Finset.sort_empty]
    rfl
  refine ⟨by decide, hcan, ?_, by simp⟩
  rw [hcan]
  decide

/-- C9 amended: for every capability-list string the parser accepts with a
non-empty resulting set, parsing is idempotent — rendering the normalized
set in canonical string form and parsing that string again yields the same
set.  (The restriction to non-empty sets is forced by the `","`
counterexample, where the accepted parse yields the empty set whose
canonical rendering re-parses as absent.) -/
theorem parse_canonical_roundtrip (s : String) (caps : Finset String)
    (hok : deserialize_caps s = .ok (some caps)) (hne : caps ≠ ∅) :
    deserialize_caps (canonicalCapString caps) = .ok (some caps) :=
  roundtrip_of_known caps hne (mem_of_deserialize_ok s caps hok)

/-- C9 witness: round-trip of the legacy-format input. -/
theorem parse_canonical_roundtrip_witness :
    deserialize_caps (canonicalCapString {"CAP_SYS_MODULE"})
      = .ok (some {"CAP_SYS_MODULE"}) :=
  parse_canonical_roundtrip "= cap_sys_module+eip" {"CAP_SYS_MODULE"}
    (by decide) (by decide)

end Huldufolk
